import Mathlib

/-!
Verification of the gallery tree builder (`generate_gallery.py`).

The program recursively scans a directory, producing a JSON tree of
folder / image / video nodes.  We embed the program shallowly: the
filesystem snapshot is an inductive `Entry` value, paths are `String`s
with `/` as separator (the POSIX model, which is also the separator the
program normalises to), and the Python standard-library functions used
by the program (`os.path.basename`, `os.path.join`, `os.path.splitext`,
`str.replace`, `str.lower`, `urllib.parse.quote`) are translated below.
`str.lower` is modelled on ASCII letters (every character of the
extension sets is ASCII).
-/

namespace Gallery

/-- Python `s.startswith(c)` for a single-character prefix. -/
def startsWithChar (s : String) (c : Char) : Bool :=
  match s.data with
  | [] => false
  | x :: _ => x == c

/-- Python `s.endswith(c)` for a single-character suffix. -/
def endsWithChar (s : String) (c : Char) : Bool :=
  match s.data.getLast? with
  | some x => x == c
  | none => false

/-- `os.path.basename` for POSIX paths: everything after the last `/`. -/
def basename (s : String) : String :=
  String.mk ((s.data.reverse.takeWhile (fun c => c != '/')).reverse)

/-- `os.path.join` for POSIX paths (two arguments, as used by the program). -/
def pyJoin (a b : String) : String :=
  if startsWithChar b '/' then b
  else if a = "" || endsWithChar a '/' then a ++ b
  else a ++ "/" ++ b

/-- Python `s.replace(c, d)` for single-character arguments. -/
def replaceChar (c d : Char) (s : String) : String :=
  String.mk (s.data.map (fun x => if x = c then d else x))

/-- Python `s.replace(c, "")` for a single-character pattern: drop every `c`. -/
def removeChar (c : Char) (s : String) : String :=
  String.mk (s.data.filter (fun x => x ≠ c))

/-- Python `s.lower()`, modelled on ASCII letters. -/
def toLowerStr (s : String) : String :=
  String.mk (s.data.map Char.toLower)

/-- Index of the last occurrence of `c` in the list, if any. -/
def lastIdxOf (c : Char) : List Char → Option Nat
  | [] => none
  | x :: xs =>
    match lastIdxOf c xs with
    | some i => some (i + 1)
    | none => if x = c then some 0 else none

/-- `os.path.splitext`: split off the extension at the last dot of the final
path component, unless every character before that dot (within the final
component) is itself a dot. -/
def splitext (s : String) : String × String :=
  let cs := s.data
  let fnameStart : Nat :=
    match lastIdxOf '/' cs with
    | some i => i + 1
    | none => 0
  match lastIdxOf '.' cs with
  | some d =>
    if fnameStart ≤ d ∧ ((cs.drop fnameStart).take (d - fnameStart)).any (fun c => c ≠ '.') then
      (String.mk (cs.take d), String.mk (cs.drop d))
    else (s, "")
  | none => (s, "")

/-- `IMG_EXTENSIONS` from the source. -/
def IMG_EXTENSIONS : List String := [".jpg", ".jpeg", ".png", ".gif", ".webp", ".bmp"]

/-- `VID_EXTENSIONS` from the source. -/
def VID_EXTENSIONS : List String := [".mp4", ".mov", ".webm", ".ogg", ".mkv"]

/-- `generate_safe_id`: replace the path separator and spaces by underscores,
remove dots, lowercase. -/
def generate_safe_id (path : String) : String :=
  toLowerStr (removeChar '.' (replaceChar ' ' '_' (replaceChar '/' '_' path)))

/-- A snapshot of one filesystem object.  `dir` carries its listing (name /
object pairs) and whether `os.listdir` succeeds on it (`readable = false`
models `PermissionError`); `file` is a regular file; `special` exists but is
neither a directory nor a regular file; `missing` is a path for which
`os.path.exists` is false. -/
inductive Entry where
  | dir (entries : List (String × Entry)) (readable : Bool)
  | file
  | special
  | missing

/-- `os.path.exists`. -/
def entryExists : Entry → Bool
  | .missing => false
  | _ => true

/-- The output tree: a tagged union of folder and media nodes, mirroring the
dictionaries built by `scan_directory`. -/
inductive Node where
  | folder (id name : String) (children : List Node)
  | media (id name type src thumbnail date : String)

/-- The `name` field of a node. -/
def nodeName : Node → String
  | .folder _ n _ => n
  | .media _ n _ _ _ _ => n

/-- The `id` field of a node. -/
def nodeId : Node → String
  | .folder i _ _ => i
  | .media i _ _ _ _ _ => i

/-- The `children` field of a folder node (media nodes have none). -/
def nodeChildren : Node → List Node
  | .folder _ _ cs => cs
  | .media _ _ _ _ _ _ => []

/-- `sorted(os.listdir(path))`: the listing sorted by name
(codepoint-lexicographic, as Python compares strings). -/
def sortEntries (l : List (String × Entry)) : List (String × Entry) :=
  List.insertionSort (fun a b => a.1 ≤ b.1) l

/-- The folder name chosen by `scan_directory`:
`os.path.basename(path) or "Home"`. -/
def folderNameOf (path : String) : String :=
  if basename path = "" then "Home" else basename path

/-- The warning printed when `os.path.exists(path)` is false. -/
def notFoundWarning (path : String) : String :=
  "Warning: Path " ++ path ++ " not found."

/-- The warning printed when `os.listdir(path)` raises `PermissionError`. -/
def permWarning (path : String) : String :=
  "Warning: Permission denied for " ++ path ++ "."

/-- Lowercased extension of a file name, as computed on lines 62-63. -/
def lowerExt (name : String) : String :=
  toLowerStr (splitext name).2

/-- The inclusion test of line 65: the lowercased extension is in one of the
two sets. -/
def isMediaName (name : String) : Bool :=
  IMG_EXTENSIONS.contains (lowerExt name) || VID_EXTENSIONS.contains (lowerExt name)

/-- Normalising path separators to forward slashes (line 67). -/
def normalizeSlash (s : String) : String :=
  replaceChar '\\' '/' s

/-- Bytes (as `Nat`s below 256) of the UTF-8 encoding of one character. -/
def utf8EncodeChar (c : Char) : List Nat :=
  let n := c.toNat
  if n < 128 then [n]
  else if n < 2048 then [192 + n / 64, 128 + n % 64]
  else if n < 65536 then [224 + n / 4096, 128 + n / 64 % 64, 128 + n % 64]
  else [240 + n / 262144, 128 + n / 4096 % 64, 128 + n / 64 % 64, 128 + n % 64]

/-- UTF-8 bytes of a string. -/
def utf8Encode (s : String) : List Nat :=
  (s.data.map utf8EncodeChar).flatten

/-- Bytes `urllib.parse.quote` leaves unescaped with `safe='/'`: ASCII
letters, digits, `_`, `.`, `-`, `~` (the always-safe set) and `/`. -/
def isSafeByte (b : Nat) : Bool :=
  (65 ≤ b && b ≤ 90) || (97 ≤ b && b ≤ 122) || (48 ≤ b && b ≤ 57) ||
    (b == 95) || (b == 46) || (b == 45) || (b == 126) || (b == 47)

/-- Uppercase hexadecimal digit for a value below 16. -/
def hexDigit (n : Nat) : Char :=
  if n < 10 then Char.ofNat (48 + n) else Char.ofNat (55 + n)

/-- How `urllib.parse.quote` renders one byte: kept verbatim when safe,
escaped as `%XX` (uppercase hexadecimal) otherwise. -/
def quoteByteChars (b : Nat) : List Char :=
  if isSafeByte b then [Char.ofNat b]
  else ['%', hexDigit (b / 16), hexDigit (b % 16)]

/-- `urllib.parse.quote(s, safe='/')`: UTF-8 encode, then escape every byte
outside the safe set as `%XX`. -/
def pyQuote (s : String) : String :=
  String.mk ((utf8Encode s).map quoteByteChars).flatten

/-- Numeric value of a hexadecimal digit character, if any. -/
def hexVal (c : Char) : Option Nat :=
  if '0' ≤ c ∧ c ≤ '9' then some (c.toNat - 48)
  else if 'A' ≤ c ∧ c ≤ 'F' then some (c.toNat - 55)
  else if 'a' ≤ c ∧ c ≤ 'f' then some (c.toNat - 87)
  else none

/-- Percent-decoding to bytes, the inverse direction named by the spec's
round-trip property (it does not occur in the source): following
`urllib.parse.unquote`, each `%XY` with hexadecimal digits `X`, `Y` becomes
the byte `0xXY`, and every other character — in particular a literal `/` —
stands for its own UTF-8 bytes. -/
def percentDecodeBytes : List Char → List Nat
  | [] => []
  | '%' :: a :: b :: rest2 =>
    match hexVal a, hexVal b with
    | some x, some y => (16 * x + y) :: percentDecodeBytes rest2
    | _, _ => utf8EncodeChar '%' ++ percentDecodeBytes (a :: b :: rest2)
  | c :: rest => utf8EncodeChar c ++ percentDecodeBytes rest
termination_by l => l.length
decreasing_by all_goals simp [List.length_cons] <;> omega

/-- Whether a byte is a UTF-8 continuation byte. -/
def isCont (b : Nat) : Bool := 128 ≤ b && b < 192

/-- The Unicode replacement character, emitted for malformed byte sequences
(`errors='replace'`). -/
def replChar : Char := Char.ofNat 65533

mutual

/-- UTF-8 decoding of a byte sequence, malformed sequences replaced. -/
def utf8DecodeAux : List Nat → List Char
  | [] => []
  | b :: rest =>
    if b < 128 then Char.ofNat b :: utf8DecodeAux rest
    else if b < 192 then replChar :: utf8DecodeAux rest
    else if b < 224 then utf8Dec2 b rest
    else if b < 240 then utf8Dec3 b rest
    else if b < 248 then utf8Dec4 b rest
    else replChar :: utf8DecodeAux rest
termination_by l => (l.length, 0)

/-- Continuation of a two-byte UTF-8 sequence with lead byte `b`. -/
def utf8Dec2 (b : Nat) : List Nat → List Char
  | b1 :: rest1 =>
    if isCont b1 then Char.ofNat ((b - 192) * 64 + (b1 - 128)) :: utf8DecodeAux rest1
    else replChar :: utf8DecodeAux (b1 :: rest1)
  | [] => [replChar]
termination_by l => (l.length, 1)

/-- Continuation of a three-byte UTF-8 sequence with lead byte `b`. -/
def utf8Dec3 (b : Nat) : List Nat → List Char
  | b1 :: b2 :: rest2 =>
    if isCont b1 && isCont b2 then
      Char.ofNat ((b - 224) * 4096 + (b1 - 128) * 64 + (b2 - 128)) :: utf8DecodeAux rest2
    else replChar :: utf8DecodeAux (b1 :: b2 :: rest2)
  | [b1] => replChar :: utf8DecodeAux [b1]
  | [] => [replChar]
termination_by l => (l.length, 1)

/-- Continuation of a four-byte UTF-8 sequence with lead byte `b`. -/
def utf8Dec4 (b : Nat) : List Nat → List Char
  | b1 :: b2 :: b3 :: rest3 =>
    if isCont b1 && isCont b2 && isCont b3 then
      Char.ofNat ((b - 240) * 262144 + (b1 - 128) * 4096 + (b2 - 128) * 64 + (b3 - 128)) ::
        utf8DecodeAux rest3
    else replChar :: utf8DecodeAux (b1 :: b2 :: b3 :: rest3)
  | [b1, b2] => replChar :: utf8DecodeAux [b1, b2]
  | [b1] => replChar :: utf8DecodeAux [b1]
  | [] => [replChar]
termination_by l => (l.length, 1)

end

/-- Percent-decoding of a string (`urllib.parse.unquote` with UTF-8). -/
def pyUnquote (s : String) : String :=
  String.mk (utf8DecodeAux (percentDecodeBytes s.data))

/-- The media node built on lines 73-80 for a file `name` inside `path`. -/
def mkMediaNode (path name : String) : Node :=
  let webPath := pyQuote (normalizeSlash (pyJoin path name))
  Node.media (replaceChar ' ' '_' (replaceChar '.' '_' name)) name
    (if VID_EXTENSIONS.contains (lowerExt name) then "video" else "image")
    webPath webPath ""

mutual

/-- `scan_directory` on a directory that exists: build the folder node and
the ordered list of warnings printed while scanning.  `readable = false` is
the `PermissionError` branch of lines 46-50. -/
def scanDir (path : String) (entries : List (String × Entry)) (readable : Bool) :
    Node × List String :=
  if readable then
    let res := scanItems path (sortEntries entries)
    (Node.folder (generate_safe_id path) (folderNameOf path) res.1, res.2)
  else
    (Node.folder (generate_safe_id path) (folderNameOf path) [], [permWarning path])
termination_by sizeOf entries + 1
decreasing_by
  have hp : List.Perm (sortEntries entries) entries := List.perm_insertionSort _ entries
  have h : sizeOf (sortEntries entries) = sizeOf entries := hp.sizeOf_eq_sizeOf
  simp only [h]
  omega

/-- The `for item in items` loop of lines 52-80, over the already-sorted
listing: skip hidden names, recurse into directories, keep media files. -/
def scanItems (path : String) (items : List (String × Entry)) :
    List Node × List String :=
  match items with
  | [] => ([], [])
  | (name, e) :: rest =>
    if startsWithChar name '.' then scanItems path rest
    else
      match e with
      | .dir entries readable =>
        let child := scanDir (pyJoin path name) entries readable
        let others := scanItems path rest
        (child.1 :: others.1, child.2 ++ others.2)
      | .file =>
        let others := scanItems path rest
        if isMediaName name then (mkMediaNode path name :: others.1, others.2)
        else others
      | .special => scanItems path rest
      | .missing => scanItems path rest
termination_by sizeOf items

end

/-- `scan_directory(path)` on an arbitrary path.  A missing path yields the
empty node plus a warning (lines 42-44); listing a non-directory raises
`NotADirectoryError`, which the program does not catch. -/
def scan (path : String) (e : Entry) : Except String (Node × List String) :=
  match e with
  | .missing =>
    .ok (Node.folder (generate_safe_id path) (folderNameOf path) [], [notFoundWarning path])
  | .dir entries readable => .ok (scanDir path entries readable)
  | .file => .error "NotADirectoryError"
  | .special => .error "NotADirectoryError"

/-- Result of `generate()`: either the wrapped payload plus the warnings, or
the critical-error exit (root missing), or an uncaught exception.  Writing
the output file is outside the modelled core. -/
inductive GenResult where
  | ok (payload : Node) (warnings : List String)
  | criticalError
  | crashed

/-- `generate()` on a root path bound to filesystem object `e` (lines 84-102):
check existence, scan, and wrap the scanned node in the fixed
`id = "root"`, `name = "Home"` folder, keeping only its children. -/
def generate (root : String) (e : Entry) : GenResult :=
  if entryExists e = false then .criticalError
  else
    match scan root e with
    | .ok (n, ws) => .ok (Node.folder "root" "Home" (nodeChildren n)) ws
    | .error _ => .crashed

/-- Well-formedness of one listing name, as guaranteed by a real filesystem:
nonempty and free of the path separator. -/
def validName (s : String) : Bool :=
  (!(s == "")) && s.data.all (fun c => c != '/')

mutual

/-- Every name in the snapshot is a well-formed filesystem name, recursively:
real directory listings contain no empty name and no separator. -/
def entryValid : Entry → Bool
  | .dir entries _ => entriesValid entries
  | .file => true
  | .special => true
  | .missing => true

/-- `entryValid` for a whole listing. -/
def entriesValid : List (String × Entry) → Bool
  | [] => true
  | (n, e) :: rest => validName n && entryValid e && entriesValid rest

end

/-- The child node (if any) that one iteration of the loop appends for
listing entry `x` of the directory at `path`. -/
def childNodeOf (path : String) (x : String × Entry) : Option Node :=
  if startsWithChar x.1 '.' then none
  else
    match x.2 with
    | .dir es r => some (scanDir (pyJoin path x.1) es r).1
    | .file => if isMediaName x.1 then some (mkMediaNode path x.1) else none
    | .special => none
    | .missing => none

/-- The warnings that one iteration of the loop prints for listing entry `x`. -/
def childWarnsOf (path : String) (x : String × Entry) : List String :=
  if startsWithChar x.1 '.' then []
  else
    match x.2 with
    | .dir es r => (scanDir (pyJoin path x.1) es r).2
    | _ => []

/-- The `type` field a node is serialised with. -/
def nodeType : Node → String
  | .folder _ _ _ => "folder"
  | .media _ _ t _ _ _ => t

/-- Every media node of the tree has `thumbnail = src` and `date = ""`. -/
def nodeShapeOk : Node → Bool
  | .folder _ _ cs => cs.attach.all (fun c => nodeShapeOk c.1)
  | .media _ _ _ src thumbnail date => (thumbnail == src) && (date == "")
decreasing_by
  rcases c with ⟨c, hc⟩
  have h := List.sizeOf_lt_of_mem hc
  simp only [Node.folder.sizeOf_spec] at *
  omega

/-- Every media node's id is its own name with dots and spaces replaced by
underscores (case untouched). -/
def mediaIdsOk : Node → Bool
  | .folder _ _ cs => cs.attach.all (fun c => mediaIdsOk c.1)
  | .media i name _ _ _ _ => i == replaceChar ' ' '_' (replaceChar '.' '_' name)
decreasing_by
  rcases c with ⟨c, hc⟩
  have h := List.sizeOf_lt_of_mem hc
  simp only [Node.folder.sizeOf_spec] at *
  omega

/-- No node below the root has a name beginning with `.`. -/
def treeNoHidden : Node → Bool
  | .folder _ _ cs =>
    cs.attach.all (fun c => !startsWithChar (nodeName c.1) '.' && treeNoHidden c.1)
  | .media _ _ _ _ _ _ => true
decreasing_by
  rcases c with ⟨c, hc⟩
  have h := List.sizeOf_lt_of_mem hc
  simp only [Node.folder.sizeOf_spec] at *
  omega

/-- The list of strings is non-decreasing. -/
def nonDecr : List String → Bool
  | [] => true
  | [_] => true
  | a :: b :: t => decide (a ≤ b) && nonDecr (b :: t)

/-- Every folder's children appear in non-decreasing order of their names. -/
def treeSorted : Node → Bool
  | .folder _ _ cs => nonDecr (cs.map nodeName) && cs.attach.all (fun c => treeSorted c.1)
  | .media _ _ _ _ _ _ => true
decreasing_by
  rcases c with ⟨c, hc⟩
  have h := List.sizeOf_lt_of_mem hc
  simp only [Node.folder.sizeOf_spec] at *
  omega

/-- Every folder node below a node built at path `p` carries as id the
`generate_safe_id` of its full path accumulated from `p`. -/
def folderIdsOkFrom (p : String) : Node → Bool
  | .folder i name cs =>
    (i == generate_safe_id (pyJoin p name)) &&
      cs.attach.all (fun c => folderIdsOkFrom (pyJoin p name) c.1)
  | .media _ _ _ _ _ _ => true
decreasing_by
  rcases c with ⟨c, hc⟩
  have h := List.sizeOf_lt_of_mem hc
  simp only [Node.folder.sizeOf_spec] at *
  omega

/-- Every media node below a node built at path `p` has a `src` whose
percent-decoding is the slash-normalised full path accumulated from `p`. -/
def mediaSrcOkFrom (p : String) : Node → Bool
  | .folder _ name cs => cs.attach.all (fun c => mediaSrcOkFrom (pyJoin p name) c.1)
  | .media _ name _ src _ _ => pyUnquote src == normalizeSlash (pyJoin p name)
decreasing_by
  rcases c with ⟨c, hc⟩
  have h := List.sizeOf_lt_of_mem hc
  simp only [Node.folder.sizeOf_spec] at *
  omega

instance : IsTotal (String × Entry) (fun a b => a.1 ≤ b.1) :=
  ⟨fun a b => le_total a.1 b.1⟩

instance : IsTrans (String × Entry) (fun a b => a.1 ≤ b.1) :=
  ⟨fun _ _ _ h1 h2 => le_trans h1 h2⟩

mutual

/-- The spec's ordered anomaly list for the scan of the directory at `path`:
one warning per per-node anomaly (here: a directory whose listing fails), in
depth-first traversal order. -/
def dirAnomalies (path : String) (entries : List (String × Entry)) (readable : Bool) :
    List String :=
  if readable then itemsAnomalies path (sortEntries entries) else [permWarning path]
termination_by sizeOf entries + 1
decreasing_by
  have hp : List.Perm (sortEntries entries) entries := List.perm_insertionSort _ entries
  have h : sizeOf (sortEntries entries) = sizeOf entries := hp.sizeOf_eq_sizeOf
  simp only [h]
  omega

/-- Anomaly warnings contributed by the listed entries, in order. -/
def itemsAnomalies (path : String) (items : List (String × Entry)) : List String :=
  match items with
  | [] => []
  | (name, e) :: rest =>
    if startsWithChar name '.' then itemsAnomalies path rest
    else
      match e with
      | .dir es r => dirAnomalies (pyJoin path name) es r ++ itemsAnomalies path rest
      | _ => itemsAnomalies path rest
termination_by sizeOf items

end

instance : IsAntisymm (String × Entry) (fun a b => a.1 < b.1) :=
  ⟨fun _ _ h1 h2 => absurd h2 (lt_asymm h1)⟩

/-- A small sample snapshot (the spec's example tree) used to instantiate
hypotheses concretely. -/
def sampleEntries : List (String × Entry) :=
  [("Vacation 2023", Entry.dir [("beach.JPG", Entry.file), (".DS_Store", Entry.file)] true),
   ("notes.txt", Entry.file),
   ("Clips", Entry.dir [("video.mp4", Entry.file)] true)]

theorem sortEntries_perm (l : List (String × Entry)) : List.Perm (sortEntries l) l :=
  List.perm_insertionSort _ l

theorem sizeOf_sortEntries (l : List (String × Entry)) :
    sizeOf (sortEntries l) = sizeOf l :=
  (sortEntries_perm l).sizeOf_eq_sizeOf

theorem mem_sortEntries {x : String × Entry} {l : List (String × Entry)} :
    x ∈ sortEntries l ↔ x ∈ l :=
  (sortEntries_perm l).mem_iff

theorem charToNat_lt (c : Char) : c.toNat < 1114112 := by
  rcases c with ⟨v, h⟩
  rcases h with h | ⟨h1, h2⟩ <;>
    simp [Char.toNat, UInt32.isValidChar, Nat.isValidChar] at * <;> omega

theorem charToNat_ofNat {n : Nat} (h : n < 55296) : (Char.ofNat n).toNat = n := by
  have hv : n.isValidChar := Or.inl h
  simp [Char.ofNat, hv, Char.ofNatAux, Char.toNat, UInt32.toNat, BitVec.toNat_ofNatLt]

theorem hexVal_hexDigit : ∀ n : Nat, n < 16 → hexVal (hexDigit n) = some n := by decide

theorem utf8DecodeAux_encode (c : Char) (rest : List Nat) :
    utf8DecodeAux (utf8EncodeChar c ++ rest) = c :: utf8DecodeAux rest := by
  have hlt : c.toNat < 1114112 := charToNat_lt c
  by_cases h1 : c.toNat < 128
  · rw [show utf8EncodeChar c = [c.toNat] from by unfold utf8EncodeChar; rw [if_pos h1]]
    show utf8DecodeAux (c.toNat :: rest) = _
    rw [utf8DecodeAux, if_pos h1, Char.ofNat_toNat]
  · by_cases h2 : c.toNat < 2048
    · rw [show utf8EncodeChar c = [192 + c.toNat / 64, 128 + c.toNat % 64] from by
        unfold utf8EncodeChar; rw [if_neg h1, if_pos h2]]
      show utf8DecodeAux ((192 + c.toNat / 64) :: (128 + c.toNat % 64) :: rest) = _
      rw [utf8DecodeAux, if_neg (by omega), if_neg (by omega), if_pos (by omega), utf8Dec2,
        if_pos (show isCont (128 + c.toNat % 64) = true by simp [isCont]; omega),
        show (192 + c.toNat / 64 - 192) * 64 + (128 + c.toNat % 64 - 128) = c.toNat by omega,
        Char.ofNat_toNat]
    · by_cases h3 : c.toNat < 65536
      · rw [show utf8EncodeChar c
            = [224 + c.toNat / 4096, 128 + c.toNat / 64 % 64, 128 + c.toNat % 64] from by
          unfold utf8EncodeChar; rw [if_neg h1, if_neg h2, if_pos h3]]
        show utf8DecodeAux ((224 + c.toNat / 4096) :: (128 + c.toNat / 64 % 64)
            :: (128 + c.toNat % 64) :: rest) = _
        rw [utf8DecodeAux, if_neg (by omega), if_neg (by omega), if_neg (by omega),
          if_pos (by omega), utf8Dec3,
          if_pos (show (isCont (128 + c.toNat / 64 % 64) && isCont (128 + c.toNat % 64)) = true
            by simp [isCont]; omega),
          show (224 + c.toNat / 4096 - 224) * 4096 + (128 + c.toNat / 64 % 64 - 128) * 64
            + (128 + c.toNat % 64 - 128) = c.toNat by omega, Char.ofNat_toNat]
      · rw [show utf8EncodeChar c = [240 + c.toNat / 262144, 128 + c.toNat / 4096 % 64,
            128 + c.toNat / 64 % 64, 128 + c.toNat % 64] from by
          unfold utf8EncodeChar; rw [if_neg h1, if_neg h2, if_neg h3]]
        show utf8DecodeAux ((240 + c.toNat / 262144) :: (128 + c.toNat / 4096 % 64)
            :: (128 + c.toNat / 64 % 64) :: (128 + c.toNat % 64) :: rest) = _
        rw [utf8DecodeAux, if_neg (by omega), if_neg (by omega), if_neg (by omega),
          if_neg (by omega), if_pos (by omega), utf8Dec4,
          if_pos (show (isCont (128 + c.toNat / 4096 % 64) && isCont (128 + c.toNat / 64 % 64)
            && isCont (128 + c.toNat % 64)) = true by simp [isCont]; omega),
          show (240 + c.toNat / 262144 - 240) * 262144 + (128 + c.toNat / 4096 % 64 - 128) * 4096
            + (128 + c.toNat / 64 % 64 - 128) * 64 + (128 + c.toNat % 64 - 128) = c.toNat
            by omega, Char.ofNat_toNat]

theorem percentDecode_cons_ne (c : Char) (hc : c ≠ '%') (cs : List Char) :
    percentDecodeBytes (c :: cs) = utf8EncodeChar c ++ percentDecodeBytes cs :=
  percentDecodeBytes.eq_3 c cs (fun _ _ _ h _ => hc h)

theorem percentDecode_escaped (b : Nat) (hb : b < 256) (cs : List Char) :
    percentDecodeBytes ('%' :: hexDigit (b / 16) :: hexDigit (b % 16) :: cs)
      = b :: percentDecodeBytes cs := by
  rw [percentDecodeBytes.eq_2, hexVal_hexDigit (b / 16) (by omega),
    hexVal_hexDigit (b % 16) (by omega)]
  show (16 * (b / 16) + b % 16) :: percentDecodeBytes cs = _
  congr 1
  omega

theorem percentDecode_safe (b : Nat) (hb : isSafeByte b = true) (cs : List Char) :
    percentDecodeBytes (Char.ofNat b :: cs) = b :: percentDecodeBytes cs := by
  have hb128 : b < 128 := by simp [isSafeByte] at hb; omega
  have htn : (Char.ofNat b).toNat = b := charToNat_ofNat (by omega)
  have hne : Char.ofNat b ≠ '%' := by
    intro he
    have hb37 : b = 37 := by rw [← htn, he]; rfl
    rw [hb37] at hb
    exact absurd hb (by decide)
  rw [percentDecode_cons_ne _ hne,
    show utf8EncodeChar (Char.ofNat b) = [b] from by
      unfold utf8EncodeChar; rw [htn, if_pos hb128]]
  rfl

theorem percentDecode_quote (bs : List Nat) (h : ∀ b ∈ bs, b < 256) :
    percentDecodeBytes ((bs.map quoteByteChars).flatten) = bs := by
  induction bs with
  | nil => simp [percentDecodeBytes]
  | cons b rest ih =>
    have hb : b < 256 := h b (by simp)
    have hrest : ∀ x ∈ rest, x < 256 := fun x hx => h x (by simp [hx])
    by_cases hs : isSafeByte b = true
    · simp only [List.map_cons, List.flatten_cons, quoteByteChars, if_pos hs]
      show percentDecodeBytes (Char.ofNat b :: (List.map quoteByteChars rest).flatten) = _
      rw [percentDecode_safe b hs, ih hrest]
    · simp only [List.map_cons, List.flatten_cons, quoteByteChars,
        if_neg (by simpa using hs : ¬ isSafeByte b = true)]
      show percentDecodeBytes ('%' :: hexDigit (b / 16) :: hexDigit (b % 16)
        :: (List.map quoteByteChars rest).flatten) = _
      rw [percentDecode_escaped b hb, ih hrest]

theorem utf8EncodeChar_lt (c : Char) : ∀ b ∈ utf8EncodeChar c, b < 256 := by
  have h := charToNat_lt c
  intro b hb
  simp only [utf8EncodeChar] at hb
  split_ifs at hb with h1 h2 h3 <;> simp at hb <;> omega

theorem utf8Encode_lt (s : String) : ∀ b ∈ utf8Encode s, b < 256 := by
  intro b hb
  unfold utf8Encode at hb
  rw [List.mem_flatten] at hb
  rcases hb with ⟨l, hl, hbl⟩
  rw [List.mem_map] at hl
  rcases hl with ⟨c, _, rfl⟩
  exact utf8EncodeChar_lt c b hbl

theorem utf8Decode_encode_list (l : List Char) :
    utf8DecodeAux (l.map utf8EncodeChar).flatten = l := by
  induction l with
  | nil => simp [utf8DecodeAux]
  | cons c cs ih => rw [List.map_cons, List.flatten_cons, utf8DecodeAux_encode, ih]

/-- Round-trip of the program's URL encoding: percent-decoding inverts
`urllib.parse.quote(·, safe='/')` on every string. -/
theorem pyUnquote_pyQuote (s : String) : pyUnquote (pyQuote s) = s := by
  unfold pyUnquote pyQuote
  show String.mk (utf8DecodeAux (percentDecodeBytes
    ((utf8Encode s).map quoteByteChars).flatten)) = s
  rw [percentDecode_quote _ (utf8Encode_lt s)]
  show String.mk (utf8DecodeAux ((s.data.map utf8EncodeChar).flatten)) = s
  rw [utf8Decode_encode_list]

theorem takeWhile_append_slash {l1 l2 : List Char} (h : ∀ c ∈ l1, (c != '/') = true) :
    (l1 ++ '/' :: l2).takeWhile (fun c => c != '/') = l1 := by
  induction l1 with
  | nil => simp
  | cons c cs ih =>
    simp [List.takeWhile_cons, h c (by simp), ih (fun x hx => h x (by simp [hx]))]

theorem takeWhile_all_ne {l : List Char} (h : ∀ c ∈ l, (c != '/') = true) :
    l.takeWhile (fun c => c != '/') = l := by
  induction l with
  | nil => rfl
  | cons c cs ih => simp [List.takeWhile_cons, h c (by simp), ih (fun x hx => h x (by simp [hx]))]

theorem validName_ne_nil {s : String} (hv : validName s = true) : s.data ≠ [] := by
  intro hd
  rw [validName, Bool.and_eq_true] at hv
  rw [show s = "" from String.ext hd] at hv
  simp at hv

theorem validName_all {s : String} (hv : validName s = true) :
    ∀ c ∈ s.data, (c != '/') = true := by
  rw [validName, Bool.and_eq_true] at hv
  exact fun c hc => (List.all_eq_true.mp hv.2) c hc

theorem startsWithChar_slash_false {s : String} (hv : validName s = true) :
    startsWithChar s '/' = false := by
  rw [startsWithChar]
  rcases hd : s.data with _ | ⟨c, cs⟩
  · rfl
  · have := validName_all hv c (by rw [hd]; simp)
    simpa using this

theorem basename_pyJoin {p name : String} (hv : validName name = true) :
    basename (pyJoin p name) = name := by
  have hall : ∀ c ∈ name.data.reverse, (c != '/') = true := by
    intro c hc
    exact validName_all hv c (List.mem_reverse.mp hc)
  rw [pyJoin, startsWithChar_slash_false hv]
  simp only [Bool.false_eq_true, if_false]
  by_cases hcond : (decide (p = "") || endsWithChar p '/') = true
  · rw [if_pos hcond]
    rcases Bool.or_eq_true _ _ |>.mp hcond with hp | hp
    · have hp' : p = "" := of_decide_eq_true hp
      subst hp'
      rw [basename]
      rw [show ("" ++ name).data = name.data from by rw [String.data_append]; rfl]
      rw [takeWhile_all_ne hall, List.reverse_reverse]
    · rw [endsWithChar, List.getLast?_eq_head?_reverse] at hp
      rcases hr : p.data.reverse with _ | ⟨x, xs⟩
      · rw [hr] at hp; simp at hp
      · rw [hr] at hp
        have hx : x = '/' := by simpa using hp
        subst hx
        rw [basename, String.data_append, List.reverse_append, hr,
          takeWhile_append_slash hall, List.reverse_reverse]
  · rw [if_neg hcond]
    rw [basename, String.data_append, String.data_append, List.reverse_append,
      List.reverse_append,
      show name.data.reverse ++ (("/" : String).data.reverse ++ p.data.reverse)
        = name.data.reverse ++ '/' :: p.data.reverse from by simp,
      takeWhile_append_slash hall, List.reverse_reverse]

theorem folderNameOf_pyJoin {p name : String} (hv : validName name = true) :
    folderNameOf (pyJoin p name) = name := by
  rw [folderNameOf, basename_pyJoin hv, if_neg]
  intro h
  exact validName_ne_nil hv (by simp [h])

theorem entriesValid_iff {entries : List (String × Entry)} :
    entriesValid entries = true
      ↔ ∀ x ∈ entries, validName x.1 = true ∧ entryValid x.2 = true := by
  induction entries with
  | nil => simp [entriesValid]
  | cons x rest ih =>
    rcases x with ⟨n, e⟩
    rw [entriesValid, Bool.and_eq_true, Bool.and_eq_true, ih]
    constructor
    · rintro ⟨⟨h1, h2⟩, h3⟩ y hy
      rcases List.mem_cons.mp hy with rfl | hy
      · exact ⟨h1, h2⟩
      · exact h3 y hy
    · intro h
      exact ⟨⟨(h (n, e) (by simp)).1, (h (n, e) (by simp)).2⟩, fun y hy => h y (by simp [hy])⟩

theorem entryValid_dir_eq (es : List (String × Entry)) (r : Bool) :
    entryValid (.dir es r) = entriesValid es := rfl

theorem scanItems_eq (path : String) (items : List (String × Entry)) :
    scanItems path items
      = (items.filterMap (childNodeOf path), (items.map (childWarnsOf path)).flatten) := by
  induction items with
  | nil => simp [scanItems]
  | cons x rest ih =>
    rcases x with ⟨name, e⟩
    by_cases hh : startsWithChar name '.' = true
    · cases e <;> simp [scanItems, hh, ih, childNodeOf, childWarnsOf]
    · cases e with
      | dir es r => simp [scanItems, hh, ih, childNodeOf, childWarnsOf]
      | file =>
        by_cases hm : isMediaName name = true <;>
          simp [scanItems, hh, hm, ih, childNodeOf, childWarnsOf]
      | special => simp [scanItems, hh, ih, childNodeOf, childWarnsOf]
      | missing => simp [scanItems, hh, ih, childNodeOf, childWarnsOf]

theorem scanDir_eq (path : String) (entries : List (String × Entry)) (r : Bool) :
    scanDir path entries r
      = if r then
          (Node.folder (generate_safe_id path) (folderNameOf path)
            ((sortEntries entries).filterMap (childNodeOf path)),
           ((sortEntries entries).map (childWarnsOf path)).flatten)
        else
          (Node.folder (generate_safe_id path) (folderNameOf path) [], [permWarning path]) := by
  cases r <;> simp [scanDir, scanItems_eq]

/-- Strong induction over directory listings: to prove `P` of every listing it
suffices to prove it assuming `P` of the listing of every subdirectory. -/
theorem listing_induction (P : List (String × Entry) → Prop)
    (step : ∀ entries, (∀ name es r, (name, Entry.dir es r) ∈ entries → P es) → P entries) :
    ∀ entries, P entries := by
  have key : ∀ n, ∀ entries, sizeOf entries ≤ n → P entries := by
    intro n
    induction n using Nat.strong_induction_on with
    | _ n ih =>
      intro entries hle
      apply step
      intro name es r hmem
      have h1 : sizeOf (name, Entry.dir es r) < sizeOf entries := List.sizeOf_lt_of_mem hmem
      have h2 : sizeOf es < sizeOf (name, Entry.dir es r) := by
        simp only [Prod.mk.sizeOf_spec, Entry.dir.sizeOf_spec]
        omega
      exact ih (sizeOf es) (by omega) es le_rfl
  intro entries
  exact key (sizeOf entries) entries le_rfl

theorem nodeShapeOk_folder {i n : String} {cs : List Node} :
    nodeShapeOk (.folder i n cs) = true ↔ ∀ c ∈ cs, nodeShapeOk c = true := by
  simp only [nodeShapeOk, List.all_eq_true]
  constructor
  · intro h c hc; exact h ⟨c, hc⟩ (List.mem_attach _ _)
  · intro h x _; exact h x.1 x.2

theorem mediaIdsOk_folder {i n : String} {cs : List Node} :
    mediaIdsOk (.folder i n cs) = true ↔ ∀ c ∈ cs, mediaIdsOk c = true := by
  simp only [mediaIdsOk, List.all_eq_true]
  constructor
  · intro h c hc; exact h ⟨c, hc⟩ (List.mem_attach _ _)
  · intro h x _; exact h x.1 x.2

theorem treeNoHidden_folder {i n : String} {cs : List Node} :
    treeNoHidden (.folder i n cs) = true
      ↔ ∀ c ∈ cs, startsWithChar (nodeName c) '.' = false ∧ treeNoHidden c = true := by
  simp only [treeNoHidden, List.all_eq_true]
  constructor
  · intro h c hc
    have := h ⟨c, hc⟩ (List.mem_attach _ _)
    rw [Bool.and_eq_true] at this
    exact ⟨by simpa using this.1, this.2⟩
  · intro h x _
    rw [Bool.and_eq_true]
    exact ⟨by simpa using (h x.1 x.2).1, (h x.1 x.2).2⟩

theorem treeSorted_folder {i n : String} {cs : List Node} :
    treeSorted (.folder i n cs) = true
      ↔ nonDecr (cs.map nodeName) = true ∧ ∀ c ∈ cs, treeSorted c = true := by
  simp only [treeSorted, Bool.and_eq_true, List.all_eq_true]
  constructor
  · intro h
    exact ⟨h.1, fun c hc => h.2 ⟨c, hc⟩ (List.mem_attach _ _)⟩
  · intro h
    exact ⟨h.1, fun x _ => h.2 x.1 x.2⟩

theorem folderIdsOkFrom_folder {p i n : String} {cs : List Node} :
    folderIdsOkFrom p (.folder i n cs) = true
      ↔ i = generate_safe_id (pyJoin p n) ∧ ∀ c ∈ cs, folderIdsOkFrom (pyJoin p n) c = true := by
  simp only [folderIdsOkFrom, Bool.and_eq_true, List.all_eq_true, beq_iff_eq]
  constructor
  · intro h
    exact ⟨h.1, fun c hc => h.2 ⟨c, hc⟩ (List.mem_attach _ _)⟩
  · intro h
    exact ⟨h.1, fun x _ => h.2 x.1 x.2⟩

theorem mediaSrcOkFrom_folder {p i n : String} {cs : List Node} :
    mediaSrcOkFrom p (.folder i n cs) = true
      ↔ ∀ c ∈ cs, mediaSrcOkFrom (pyJoin p n) c = true := by
  simp only [mediaSrcOkFrom, List.all_eq_true]
  constructor
  · intro h c hc; exact h ⟨c, hc⟩ (List.mem_attach _ _)
  · intro h x _; exact h x.1 x.2

/-- Case analysis on the child node produced for one listing entry. -/
theorem childNodeOf_cases {path name : String} {e : Entry} {n : Node}
    (h : childNodeOf path (name, e) = some n) :
    startsWithChar name '.' = false ∧
      ((∃ es r, e = Entry.dir es r ∧ n = (scanDir (pyJoin path name) es r).1) ∨
       (e = Entry.file ∧ isMediaName name = true ∧ n = mkMediaNode path name)) := by
  by_cases hh : startsWithChar name '.' = true
  · simp [childNodeOf, hh] at h
  · refine ⟨by simpa using hh, ?_⟩
    cases e with
    | dir es r =>
      simp [childNodeOf, hh] at h
      exact Or.inl ⟨es, r, rfl, h.symm⟩
    | file =>
      by_cases hm : isMediaName name = true
      · simp [childNodeOf, hh, hm] at h
        exact Or.inr ⟨rfl, hm, h.symm⟩
      · simp [childNodeOf, hh, hm] at h
    | special => simp [childNodeOf, hh] at h
    | missing => simp [childNodeOf, hh] at h

/-- The name of a produced child node is the original listing name. -/
theorem nodeName_childNodeOf {path name : String} {e : Entry} {n : Node}
    (hv : validName name = true) (h : childNodeOf path (name, e) = some n) :
    nodeName n = name := by
  rcases (childNodeOf_cases h).2 with ⟨es, r, _, rfl⟩ | ⟨_, _, rfl⟩
  · rw [scanDir_eq]
    cases r <;> simp [nodeName, folderNameOf_pyJoin hv]
  · simp [mkMediaNode, nodeName]

/-- The node `scan_directory` returns, decomposed as a folder around its
children. -/
theorem scanDir_node (path : String) (entries : List (String × Entry)) (r : Bool) :
    (scanDir path entries r).1
      = Node.folder (generate_safe_id path) (folderNameOf path)
          (nodeChildren (scanDir path entries r).1) := by
  rw [scanDir_eq]
  cases r <;> simp [nodeChildren]

/-- C7, and shared by other claims: every tree `scan_directory` builds is
shape-correct (`thumbnail = src`, `date = ""` on every media node). -/
theorem scanDir_shapeOk :
    ∀ entries (path : String) (r : Bool), nodeShapeOk (scanDir path entries r).1 = true := by
  refine listing_induction
    (fun entries => ∀ path r, nodeShapeOk (scanDir path entries r).1 = true) ?_
  intro entries IH path r
  rw [scanDir_eq]
  cases r
  · simp [nodeShapeOk]
  · simp only [if_pos]
    rw [nodeShapeOk_folder]
    intro c hc
    rw [List.mem_filterMap] at hc
    obtain ⟨⟨name, e⟩, hx, hce⟩ := hc
    have hxe : (name, e) ∈ entries := mem_sortEntries.mp hx
    rcases (childNodeOf_cases hce).2 with ⟨es, r', he, rfl⟩ | ⟨_, _, rfl⟩
    · subst he
      exact IH name es r' hxe (pyJoin path name) r'
    · simp [mkMediaNode, nodeShapeOk]

theorem scanDir_mediaIdsOk :
    ∀ entries (path : String) (r : Bool), mediaIdsOk (scanDir path entries r).1 = true := by
  refine listing_induction
    (fun entries => ∀ path r, mediaIdsOk (scanDir path entries r).1 = true) ?_
  intro entries IH path r
  rw [scanDir_eq]
  cases r
  · simp [mediaIdsOk]
  · simp only [if_pos]
    rw [mediaIdsOk_folder]
    intro c hc
    rw [List.mem_filterMap] at hc
    obtain ⟨⟨name, e⟩, hx, hce⟩ := hc
    have hxe : (name, e) ∈ entries := mem_sortEntries.mp hx
    rcases (childNodeOf_cases hce).2 with ⟨es, r', he, rfl⟩ | ⟨_, _, rfl⟩
    · subst he
      exact IH name es r' hxe (pyJoin path name) r'
    · simp [mkMediaNode, mediaIdsOk]

theorem scanDir_noHidden :
    ∀ entries, entriesValid entries = true →
      ∀ (path : String) (r : Bool), treeNoHidden (scanDir path entries r).1 = true := by
  refine listing_induction
    (fun entries => entriesValid entries = true →
      ∀ path r, treeNoHidden (scanDir path entries r).1 = true) ?_
  intro entries IH hval path r
  rw [entriesValid_iff] at hval
  rw [scanDir_eq]
  cases r
  · simp [treeNoHidden]
  · simp only [if_pos]
    rw [treeNoHidden_folder]
    intro c hc
    rw [List.mem_filterMap] at hc
    obtain ⟨⟨name, e⟩, hx, hce⟩ := hc
    have hxe : (name, e) ∈ entries := mem_sortEntries.mp hx
    have hvn : validName name = true := (hval _ hxe).1
    refine ⟨by rw [nodeName_childNodeOf hvn hce]; exact (childNodeOf_cases hce).1, ?_⟩
    rcases (childNodeOf_cases hce).2 with ⟨es, r', he, rfl⟩ | ⟨_, _, rfl⟩
    · subst he
      have hval' : entriesValid es = true := by
        rw [← entryValid_dir_eq es r']
        exact (hval _ hxe).2
      exact IH name es r' hxe hval' (pyJoin path name) r'
    · simp [mkMediaNode, treeNoHidden]

theorem scanDir_folderIds :
    ∀ entries, entriesValid entries = true →
      ∀ (path : String) (r : Bool),
        nodeId (scanDir path entries r).1 = generate_safe_id path ∧
          ∀ c ∈ nodeChildren (scanDir path entries r).1, folderIdsOkFrom path c = true := by
  refine listing_induction
    (fun entries => entriesValid entries = true →
      ∀ path r, nodeId (scanDir path entries r).1 = generate_safe_id path ∧
        ∀ c ∈ nodeChildren (scanDir path entries r).1, folderIdsOkFrom path c = true) ?_
  intro entries IH hval path r
  rw [entriesValid_iff] at hval
  rw [scanDir_eq]
  cases r
  · simp [nodeId, nodeChildren]
  · simp only [if_pos]
    refine ⟨rfl, ?_⟩
    intro c hc
    rw [nodeChildren, List.mem_filterMap] at hc
    obtain ⟨⟨name, e⟩, hx, hce⟩ := hc
    have hxe : (name, e) ∈ entries := mem_sortEntries.mp hx
    have hvn : validName name = true := (hval _ hxe).1
    rcases (childNodeOf_cases hce).2 with ⟨es, r', he, rfl⟩ | ⟨_, _, rfl⟩
    · subst he
      have hval' : entriesValid es = true := by
        rw [← entryValid_dir_eq es r']
        exact (hval _ hxe).2
      have hrec := IH name es r' hxe hval' (pyJoin path name) r'
      rw [scanDir_node, folderNameOf_pyJoin hvn, folderIdsOkFrom_folder]
      exact ⟨rfl, hrec.2⟩
    · simp [mkMediaNode, folderIdsOkFrom]

theorem scanDir_mediaSrc :
    ∀ entries, entriesValid entries = true →
      ∀ (path : String) (r : Bool),
        ∀ c ∈ nodeChildren (scanDir path entries r).1, mediaSrcOkFrom path c = true := by
  refine listing_induction
    (fun entries => entriesValid entries = true →
      ∀ path r, ∀ c ∈ nodeChildren (scanDir path entries r).1,
        mediaSrcOkFrom path c = true) ?_
  intro entries IH hval path r
  rw [entriesValid_iff] at hval
  rw [scanDir_eq]
  cases r
  · simp [nodeChildren]
  · simp only [if_pos]
    intro c hc
    rw [nodeChildren, List.mem_filterMap] at hc
    obtain ⟨⟨name, e⟩, hx, hce⟩ := hc
    have hxe : (name, e) ∈ entries := mem_sortEntries.mp hx
    have hvn : validName name = true := (hval _ hxe).1
    rcases (childNodeOf_cases hce).2 with ⟨es, r', he, rfl⟩ | ⟨_, _, rfl⟩
    · subst he
      have hval' : entriesValid es = true := by
        rw [← entryValid_dir_eq es r']
        exact (hval _ hxe).2
      have hrec := IH name es r' hxe hval' (pyJoin path name) r'
      rw [scanDir_node, folderNameOf_pyJoin hvn, mediaSrcOkFrom_folder]
      exact hrec
    · simp only [mkMediaNode, mediaSrcOkFrom]
      rw [pyUnquote_pyQuote]
      simp

theorem sortEntries_pairwise (l : List (String × Entry)) :
    List.Pairwise (fun a b => a.1 ≤ b.1) (sortEntries l) :=
  List.sorted_insertionSort _ l

theorem nonDecr_of_pairwise : ∀ {l : List String}, List.Pairwise (· ≤ ·) l → nonDecr l = true := by
  intro l h
  induction l with
  | nil => rfl
  | cons a t ih =>
    cases t with
    | nil => rfl
    | cons b t' =>
      rw [List.pairwise_cons] at h
      rw [nonDecr, Bool.and_eq_true, decide_eq_true_eq]
      exact ⟨h.1 b (by simp), ih h.2⟩

theorem scanDir_treeSorted :
    ∀ entries, entriesValid entries = true →
      ∀ (path : String) (r : Bool), treeSorted (scanDir path entries r).1 = true := by
  refine listing_induction
    (fun entries => entriesValid entries = true →
      ∀ path r, treeSorted (scanDir path entries r).1 = true) ?_
  intro entries IH hval path r
  rw [entriesValid_iff] at hval
  rw [scanDir_eq]
  cases r
  · simp [treeSorted, nonDecr]
  · simp only [if_pos]
    rw [treeSorted_folder]
    constructor
    · -- the children names are non-decreasing
      apply nonDecr_of_pairwise
      rw [List.pairwise_map]
      rw [List.pairwise_filterMap]
      refine List.Pairwise.imp_of_mem ?_ (sortEntries_pairwise entries)
      intro a b ha hb hab m hm m' hm'
      have hva : validName a.1 = true := (hval _ (mem_sortEntries.mp ha)).1
      have hvb : validName b.1 = true := (hval _ (mem_sortEntries.mp hb)).1
      rcases a with ⟨na, ea⟩
      rcases b with ⟨nb, eb⟩
      rw [nodeName_childNodeOf hva hm, nodeName_childNodeOf hvb hm']
      exact hab
    · intro c hc
      rw [List.mem_filterMap] at hc
      obtain ⟨⟨name, e⟩, hx, hce⟩ := hc
      have hxe : (name, e) ∈ entries := mem_sortEntries.mp hx
      rcases (childNodeOf_cases hce).2 with ⟨es, r', he, rfl⟩ | ⟨_, _, rfl⟩
      · subst he
        have hval' : entriesValid es = true := by
          rw [← entryValid_dir_eq es r']
          exact (hval _ hxe).2
        exact IH name es r' hxe hval' (pyJoin path name) r'
      · simp [mkMediaNode, treeSorted]

theorem scanDir_warnings :
    ∀ entries (path : String) (r : Bool),
      (scanDir path entries r).2 = dirAnomalies path entries r := by
  refine listing_induction
    (fun entries => ∀ path r, (scanDir path entries r).2 = dirAnomalies path entries r) ?_
  intro entries IH path r
  rw [scanDir_eq, dirAnomalies]
  cases r
  · simp
  · simp only [if_pos]
    have key : ∀ items, (∀ x ∈ items, x ∈ entries) →
        (items.map (childWarnsOf path)).flatten = itemsAnomalies path items := by
      intro items
      induction items with
      | nil => intro _; simp [itemsAnomalies]
      | cons x rest ih =>
        intro hsub
        rcases x with ⟨name, e⟩
        have hrest : ∀ y ∈ rest, y ∈ entries := fun y hy => hsub y (by simp [hy])
        by_cases hh : startsWithChar name '.' = true
        · cases e <;> simp [itemsAnomalies, childWarnsOf, hh, ih hrest]
        · cases e with
          | dir es r' =>
            have hmem : (name, Entry.dir es r') ∈ entries := hsub _ (by simp)
            simp [itemsAnomalies, childWarnsOf, hh, ih hrest,
              IH name es r' hmem (pyJoin path name) r']
          | file => simp [itemsAnomalies, childWarnsOf, hh, ih hrest]
          | special => simp [itemsAnomalies, childWarnsOf, hh, ih hrest]
          | missing => simp [itemsAnomalies, childWarnsOf, hh, ih hrest]
    exact key (sortEntries entries) (fun x hx => mem_sortEntries.mp hx)

theorem sortEntries_eq_of_perm {l₁ l₂ : List (String × Entry)}
    (hp : List.Perm l₁ l₂) (hnd : (l₁.map Prod.fst).Nodup) :
    sortEntries l₁ = sortEntries l₂ := by
  have hperm : List.Perm (sortEntries l₁) (sortEntries l₂) :=
    ((sortEntries_perm l₁).trans hp).trans (sortEntries_perm l₂).symm
  have strict : ∀ l : List (String × Entry), (l.map Prod.fst).Nodup →
      List.Pairwise (fun a b : String × Entry => a.1 < b.1) (sortEntries l) := by
    intro l hl
    have hle := sortEntries_pairwise l
    have hnd' : ((sortEntries l).map Prod.fst).Nodup := by
      refine (List.Perm.nodup_iff ?_).mpr hl
      exact (sortEntries_perm l).map _
    have hne : List.Pairwise (fun a b : String × Entry => a.1 ≠ b.1) (sortEntries l) :=
      List.pairwise_map.mp hnd'
    exact (hle.and hne).imp (fun h => lt_of_le_of_ne h.1 h.2)
  have hnd2 : (l₂.map Prod.fst).Nodup := by
    refine (List.Perm.nodup_iff ?_).mp hnd
    exact hp.map _
  exact List.eq_of_perm_of_sorted hperm (strict l₁ hnd) (strict l₂ hnd2)

/-- C1: percent-decoding (with `/` literal) the `src` of every media node in
the tree built by `scan_directory` reproduces the original path joined from
the root, after backslashes are normalised to forward slashes; in general
`urllib.parse.quote(·, safe='/')` round-trips through percent-decoding. -/
theorem sourcePath_roundtrip (path : String) (entries : List (String × Entry)) (r : Bool)
    (hval : entriesValid entries = true) :
    (∀ s : String, pyUnquote (pyQuote s) = s) ∧
      ∀ c ∈ nodeChildren (scanDir path entries r).1, mediaSrcOkFrom path c = true :=
  ⟨pyUnquote_pyQuote, scanDir_mediaSrc entries hval path r⟩

theorem sourcePath_roundtrip_witness :
    entriesValid sampleEntries = true ∧
      ∀ c ∈ nodeChildren (scanDir "img" sampleEntries true).1, mediaSrcOkFrom "img" c = true :=
  ⟨by decide, (sourcePath_roundtrip "img" sampleEntries true (by decide)).2⟩

/-- C2: every folder node's id is `generate_safe_id` of its full path
accumulated from the root argument (separators and spaces to underscores,
dots removed, lowercased). -/
theorem folder_id_from_full_path (path : String) (entries : List (String × Entry)) (r : Bool)
    (hval : entriesValid entries = true) :
    nodeId (scanDir path entries r).1 = generate_safe_id path ∧
      ∀ c ∈ nodeChildren (scanDir path entries r).1, folderIdsOkFrom path c = true :=
  scanDir_folderIds entries hval path r

theorem folder_id_from_full_path_witness :
    entriesValid sampleEntries = true ∧
      nodeId (scanDir "img" sampleEntries true).1 = generate_safe_id "img" :=
  ⟨by decide, (folder_id_from_full_path "img" sampleEntries true (by decide)).1⟩

/-- C3: every media node's id is the file's own name with dots and spaces
replaced by underscores, case preserved (no lowercasing, unlike folder ids:
witnessed by the concrete instance). -/
theorem media_id_from_own_name (path : String) (entries : List (String × Entry)) (r : Bool) :
    mediaIdsOk (scanDir path entries r).1 = true ∧
      replaceChar ' ' '_' (replaceChar '.' '_' "Beach Day.JPG") = "Beach_Day_JPG" ∧
      generate_safe_id "Beach Day.JPG" = "beach_dayjpg" :=
  ⟨scanDir_mediaIdsOk entries path r, by decide, by decide⟩

/-- C4: a regular, non-hidden file becomes a media node exactly when its
lowercased extension is in the image or the video set; the node's kind is
`video` for the video set and `image` otherwise; any other extension leaves
the result (nodes and warnings) untouched.  `PHOTO.JPG` classifies exactly
as `photo.jpg`. -/
theorem media_extension_filter (path name : String) (rest : List (String × Entry))
    (hh : startsWithChar name '.' = false) :
    (scanItems path ((name, Entry.file) :: rest)
        = if isMediaName name
          then (mkMediaNode path name :: (scanItems path rest).1, (scanItems path rest).2)
          else scanItems path rest)
      ∧ isMediaName name
          = (IMG_EXTENSIONS.contains (lowerExt name) || VID_EXTENSIONS.contains (lowerExt name))
      ∧ nodeType (mkMediaNode path name)
          = (if VID_EXTENSIONS.contains (lowerExt name) then "video" else "image")
      ∧ lowerExt name = toLowerStr (splitext name).2
      ∧ isMediaName "PHOTO.JPG" = isMediaName "photo.jpg"
      ∧ VID_EXTENSIONS.contains (lowerExt "PHOTO.JPG")
          = VID_EXTENSIONS.contains (lowerExt "photo.jpg") := by
  refine ⟨?_, rfl, by simp [mkMediaNode, nodeType], rfl, by decide, by decide⟩
  by_cases hm : isMediaName name = true
  · simp [scanItems, hh, hm]
  · have hm' : isMediaName name = false := by simpa using hm
    simp [scanItems, hh, hm']

theorem media_extension_filter_witness :
    startsWithChar "photo.jpg" '.' = false ∧
      scanItems "img" (("photo.jpg", Entry.file) :: [])
        = if isMediaName "photo.jpg"
          then (mkMediaNode "img" "photo.jpg" :: (scanItems "img" []).1, (scanItems "img" []).2)
          else scanItems "img" [] :=
  ⟨by decide, (media_extension_filter "img" "photo.jpg" [] (by decide)).1⟩

/-- C5: no entry whose name begins with `.` ever appears in the output tree,
at any depth, neither as a folder nor as a media node. -/
theorem no_hidden_in_tree (path : String) (entries : List (String × Entry)) (r : Bool)
    (hval : entriesValid entries = true) :
    treeNoHidden (scanDir path entries r).1 = true :=
  scanDir_noHidden entries hval path r

theorem no_hidden_in_tree_witness :
    entriesValid sampleEntries = true ∧
      treeNoHidden (scanDir "img" sampleEntries true).1 = true :=
  ⟨by decide, no_hidden_in_tree "img" sampleEntries true (by decide)⟩

/-- C6: in every folder of the output, the children (folders and media
interleaved) are ordered by the codepoint-lexicographic order of the
original entry names. -/
theorem children_sorted_by_name (path : String) (entries : List (String × Entry)) (r : Bool)
    (hval : entriesValid entries = true) :
    treeSorted (scanDir path entries r).1 = true :=
  scanDir_treeSorted entries hval path r

theorem children_sorted_by_name_witness :
    entriesValid sampleEntries = true ∧
      treeSorted (scanDir "img" sampleEntries true).1 = true :=
  ⟨by decide, children_sorted_by_name "img" sampleEntries true (by decide)⟩

/-- C7: the root of every scan is a folder node (with a children sequence),
and every media node in the tree has `thumbnail = src` and `date = ""`. -/
theorem node_shape_fields (path : String) (entries : List (String × Entry)) (r : Bool) :
    nodeShapeOk (scanDir path entries r).1 = true ∧
      nodeType (scanDir path entries r).1 = "folder" :=
  ⟨scanDir_shapeOk entries path r, by rw [scanDir_node]; rfl⟩

/-- C8: a missing scanned path and a permission-denied listing both yield the
folder node with empty children plus one warning, without failing; inside a
listing, an unreadable subdirectory contributes its empty folder node and its
warning while the remaining siblings are processed unchanged. -/
theorem scan_error_recovery (path name : String)
    (entries es rest : List (String × Entry))
    (hh : startsWithChar name '.' = false) :
    scan path Entry.missing
        = .ok (Node.folder (generate_safe_id path) (folderNameOf path) [],
            [notFoundWarning path])
      ∧ scanDir path entries false
          = (Node.folder (generate_safe_id path) (folderNameOf path) [], [permWarning path])
      ∧ scan path (Entry.dir entries true) = .ok (scanDir path entries true)
      ∧ scanItems path ((name, Entry.dir es false) :: rest)
          = (Node.folder (generate_safe_id (pyJoin path name))
                (folderNameOf (pyJoin path name)) [] :: (scanItems path rest).1,
             permWarning (pyJoin path name) :: (scanItems path rest).2) := by
  refine ⟨rfl, ?_, rfl, ?_⟩
  · rw [scanDir_eq]
    simp
  · rw [scanItems]
    simp only [hh, Bool.false_eq_true, if_false]
    rw [scanDir_eq]
    simp

theorem scan_error_recovery_witness :
    startsWithChar "sub" '.' = false ∧
      scanItems "img" (("sub", Entry.dir [] false) :: [("zed", Entry.file)])
        = (Node.folder (generate_safe_id (pyJoin "img" "sub"))
              (folderNameOf (pyJoin "img" "sub")) []
             :: (scanItems "img" [("zed", Entry.file)]).1,
           permWarning (pyJoin "img" "sub") :: (scanItems "img" [("zed", Entry.file)]).2) :=
  ⟨by decide, (scan_error_recovery "img" "sub" [] [] [("zed", Entry.file)] (by decide)).2.2.2⟩

/-- C9: `generate` surfaces, next to the wrapped root folder, the ordered
list of all per-node anomaly warnings collected during the scan. -/
theorem warnings_surfaced_ordered (root : String) (entries : List (String × Entry)) (r : Bool) :
    generate root (Entry.dir entries r)
        = GenResult.ok (Node.folder "root" "Home" (nodeChildren (scanDir root entries r).1))
            (dirAnomalies root entries r)
      ∧ (scanDir root entries r).2 = dirAnomalies root entries r := by
  refine ⟨?_, scanDir_warnings entries root r⟩
  rw [generate]
  rw [if_neg (by simp [entryExists])]
  rw [show scan root (Entry.dir entries r) = .ok (scanDir root entries r) from rfl]
  rw [show scanDir root entries r
      = ((scanDir root entries r).1, (scanDir root entries r).2) from rfl]
  rw [scanDir_warnings entries root r]

/-- C10: the output is a function of the snapshot only: permuting a
directory listing (with distinct names, as on a real filesystem) leaves the
scan result — tree and warnings — unchanged, because the listing is sorted
before processing. -/
theorem scan_order_independent (path : String) (r : Bool)
    (l₁ l₂ : List (String × Entry)) (hp : List.Perm l₁ l₂)
    (hnd : (l₁.map Prod.fst).Nodup) :
    scanDir path l₁ r = scanDir path l₂ r := by
  rw [scanDir_eq, scanDir_eq, sortEntries_eq_of_perm hp hnd]

theorem scan_order_independent_witness :
    List.Perm [("b", Entry.file), ("a", Entry.file)] [("a", Entry.file), ("b", Entry.file)]
      ∧ ([("b", Entry.file), ("a", Entry.file)].map Prod.fst).Nodup
      ∧ scanDir "img" [("b", Entry.file), ("a", Entry.file)] true
          = scanDir "img" [("a", Entry.file), ("b", Entry.file)] true :=
  ⟨List.Perm.swap ("a", Entry.file) ("b", Entry.file) [], by decide,
    scan_order_independent "img" true _ _
      (List.Perm.swap ("a", Entry.file) ("b", Entry.file) []) (by decide)⟩

end Gallery
